import Mathlib

/-!
Verification of `wordgame.py`: an A* word-morphing game where one word is
transformed into another by single-letter substitutions through a dictionary.

Words are modelled as `List Char` (Python strings), the dictionary as a
`List (List Char)` with membership lookup (Python set), integer values as
`Nat`/`Int`, and Python `float` results as `Rat`.  Functions keep the names of
the Python functions they embed.
-/

namespace Wordgame

/-- The alphabet, `[chr(i+97) for i in range(26)]`: the lowercase letters
`a` through `z` in ascending order. -/
def ALPHABET : List Char := (List.range 26).map (fun i => Char.ofNat (i + 97))

/-- Inner loop of `levenshtein`: given the character `c1` of `s1` for this row,
the remaining characters of `s2`, the suffix of the previous row starting at
column `j`, and the last element `cur` appended to the current row, produce the
rest of the current row.  Each appended element is
`min(previous_row[j+1] + 1, current_row[j] + 1, previous_row[j] + (c1 != c2))`.
The catch-all branch is unreachable when the previous row has its invariant
length `len(s2) + 1`. -/
def levRowAux (c1 : Char) : List Char → List Nat → Nat → List Nat
  | [], _, _ => []
  | c2 :: cs, p0 :: p1 :: ps, cur =>
      let e := min (min (p1 + 1) (cur + 1)) (p0 + (if c1 = c2 then 0 else 1))
      e :: levRowAux c1 cs (p1 :: ps) e
  | _ :: _, _, _ => []

/-- Outer loop of `levenshtein`: `for i, c1 in enumerate(s1)`, replacing
`previous_row` by the freshly built `current_row = [i+1] ++ ...`.  Returns the
final `previous_row`. -/
def levLoop (s2 : List Char) : List Char → List Nat → Nat → List Nat
  | [], prev, _ => prev
  | c1 :: cs, prev, i => levLoop s2 cs ((i + 1) :: levRowAux c1 s2 prev (i + 1)) (i + 1)

/-- Body of `levenshtein` once the argument swap has ensured
`len(s1) >= len(s2)`: if `s2` is empty return `len(s1)`, else run the dynamic
program starting from `previous_row = range(len(s2) + 1)` and return
`previous_row[-1]`. -/
def levCore (s1 s2 : List Char) : Nat :=
  if s2.length = 0 then s1.length
  else (levLoop s2 s1 (List.range (s2.length + 1)) 0).getLastD 0

/-- `levenshtein(s1, s2)` from `wordgame.py`: swaps the arguments when
`len(s1) < len(s2)` (so the single recursive call bottoms out immediately),
then runs the row dynamic program. -/
def levenshtein (s1 s2 : List Char) : Nat :=
  if s1.length < s2.length then levCore s2 s1 else levCore s1 s2

/-- Number of positions at which two words differ (Hamming distance on the
common prefix length); used to reason about single-letter substitutions. -/
def diffCount : List Char → List Char → Nat
  | a :: as, b :: bs => (if a = b then 0 else 1) + diffCount as bs
  | _, _ => 0

/-- `WordState`: a search state holding only the current word. -/
structure WordState where
  word : List Char
deriving DecidableEq, Repr

/-- `heuristic_null(state)`: the null heuristic, `0` for any state. -/
def heuristic_null (_state : WordState) : Nat := 0

/-- `heuristic_custom(state)`: `levenshtein(state.word, self.gw)` where `gw`
is the goal word. -/
def heuristic_custom (gw : List Char) (state : WordState) : Nat :=
  levenshtein state.word gw

/-- `heuristic(state)`: dispatches on `heuristicType` (an `int` from the
command line): `0` gives the null heuristic, `1` the custom one, and anything
else raises `RuntimeError`. -/
def heuristic (heuristicType : Int) (gw : List Char) (state : WordState) :
    Except String Int :=
  if heuristicType = 0 then .ok (heuristic_null state)
  else if heuristicType = 1 then .ok (heuristic_custom gw state)
  else .error ("Illegal heuristic type: " ++ toString heuristicType)

/-- Lowercasing of a single character as Python `str.lower()` acts on ASCII:
`A`–`Z` map to `a`–`z`, everything else is unchanged. -/
def pyLowerChar (c : Char) : Char :=
  if 'A' ≤ c ∧ c ≤ 'Z' then Char.ofNat (c.toNat + 32) else c

/-- Python `w.lower()` on an ASCII string: characterwise lowercasing. -/
def pyLower (w : List Char) : List Char := w.map pyLowerChar

/-- Python `w.strip()`: remove leading and trailing whitespace. -/
def pyStrip (w : List Char) : List Char :=
  ((w.dropWhile Char.isWhitespace).reverse.dropWhile Char.isWhitespace).reverse

/-- `make_dictionary(size)`: from the lines of the dictionary file, keep the
lines whose stripped form has length exactly `size`, and collect
`w.strip().lower()` for each; the Python `set` is modelled as the resulting
list with membership lookup. -/
def make_dictionary (size : Nat) (fileLines : List (List Char)) : List (List Char) :=
  (fileLines.filter (fun w => (pyStrip w).length = size)).map (fun w => pyLower (pyStrip w))

/-- `successors(state)`: for each position `i` in `range(len(state.word))` and
each letter of `ALPHABET` in order, form the word with position `i` replaced by
that letter; whenever the candidate is in the dictionary, append it to the
successor list and append cost `1` to the cost list. -/
def successors (dictionary : List (List Char)) (state : WordState) :
    List WordState × List Int :=
  let words := (List.range state.word.length).flatMap (fun i =>
    ALPHABET.filterMap (fun alph =>
      let cand := state.word.set i alph
      if cand ∈ dictionary then some cand else none))
  (words.map WordState.mk, words.map (fun _ => (1 : Int)))

/-- `is_goal(state)`: true exactly when the state's word is the goal word. -/
def is_goal (gw : List Char) (state : WordState) : Bool :=
  state.word = gw

section Visited

variable {Node : Type}

/-- The visited ledger `self.visited`, a Python dict from word to `AStarNode`,
modelled by its lookup function. -/
def Visited (Node : Type) := List Char → Option Node

/-- The empty ledger `{}`. -/
def emptyVisited : Visited Node := fun _ => none

/-- `visit(state, node)`: `self.visited[state.word] = node`, overwriting any
prior entry for that word. -/
def visit (v : Visited Node) (state : WordState) (node : Node) : Visited Node :=
  fun w => if w = state.word then some node else v w

/-- `clear_visited()`: `self.visited.clear()`. -/
def clear_visited (_v : Visited Node) : Visited Node := fun _ => none

/-- `visited_state_node(state)`: if `state.word in self.visited` return the
stored node, else return `None`. -/
def visited_state_node (v : Visited Node) (state : WordState) : Option Node :=
  v state.word

/-- One operation on the visited ledger. -/
inductive VisitOp (Node : Type) where
  | visit (word : List Char) (node : Node)
  | clear

/-- Run a sequence of ledger operations starting from the empty dict; the head
of the list is the most recent operation (it is applied last). -/
def runVisits : List (VisitOp Node) → Visited Node
  | [] => emptyVisited
  | op :: ops =>
      let v := runVisits ops
      match op with
      | .visit w n => visit v ⟨w⟩ n
      | .clear => clear_visited v

/-- The specification-side reading of the ledger: the node of the most recent
`visit` registered for `w`, unless a `clear` intervened, in which case none. -/
def lastRegistered : List (VisitOp Node) → List Char → Option Node
  | [], _ => none
  | .visit w n :: ops, w' => if w' = w then some n else lastRegistered ops w'
  | .clear :: _, _ => none

end Visited

/-- The fields `WordAStar.__init__` sets up before handing off to the generic
`AStar` constructor: start and goal words, the dictionary of words of the
start word's length, the empty visited ledger, the heuristic mode, and the
initial `WordState`. -/
structure WordAStarConfig where
  sw : List Char
  gw : List Char
  dictionary : List (List Char)
  heuristicType : Int
  startState : WordState
deriving Repr

/-- `WordAStar.__init__(startWord, goalWord, heuristicType)`: raises
`RuntimeError` when the two words have different lengths, BEFORE loading the
dictionary or creating the first `WordState`; otherwise builds the search
object (`fileLines` stands for the contents of the dictionary file). -/
def wordAStar_init (startWord goalWord : List Char) (heuristicType : Int)
    (fileLines : List (List Char)) : Except String WordAStarConfig :=
  if startWord.length ≠ goalWord.length then
    .error "Words must be the same length"
  else
    .ok { sw := startWord
          gw := goalWord
          dictionary := make_dictionary startWord.length fileLines
          heuristicType := heuristicType
          startState := ⟨startWord⟩ }

/-- Modelled from the spec: the expansion-tree view of an `AStarNode` from the
missing `astar_fibheap` module.  Per the spec's data model a node carries a
`children` list (the search nodes generated from it during expansion) and an
`expanded` boolean, true once successors have been generated for it; these are
the only fields `node_bf` and `branching_factor` read. -/
inductive TNode where
  | mk (children : List TNode) (expanded : Bool)
deriving Repr

/-- The node's list of children. -/
def TNode.children : TNode → List TNode
  | .mk cs _ => cs

/-- The node's expanded flag. -/
def TNode.expanded : TNode → Bool
  | .mk _ e => e

mutual

/-- `node_bf(node)`: starts with `[len(node.children)]` and, for each child in
order whose `expanded` flag is true, extends the list with that child's
`node_bf`. -/
def node_bf : TNode → List Nat
  | .mk cs _ => cs.length :: node_bf_go cs

/-- The `for c in node.children` loop body of `node_bf`. -/
def node_bf_go : List TNode → List Nat
  | [] => []
  | c :: rest => (if c.expanded then node_bf c else []) ++ node_bf_go rest

end

/-- `branching_factor()`: `float(sum(node_bf(root))) / len(node_bf(root))`;
Python division by zero would raise, so the embedding returns an error exactly
when the collected list is empty. -/
def branching_factor (root : TNode) : Except String Rat :=
  let bfs := node_bf root
  if bfs.length = 0 then .error "ZeroDivisionError"
  else .ok ((bfs.sum : Rat) / (bfs.length : Rat))

mutual

/-- Specification-side: the children counts of exactly the nodes of the tree
whose `expanded` flag is true, in preorder. -/
def expandedCounts : TNode → List Nat
  | .mk cs e => (if e then [cs.length] else []) ++ expandedCounts_go cs

/-- Child traversal for `expandedCounts`. -/
def expandedCounts_go : List TNode → List Nat
  | [] => []
  | c :: rest => expandedCounts c ++ expandedCounts_go rest

end

mutual

/-- Modelled from the spec: a well-formed expansion tree. A node acquires
children only by being expanded (successors are attached during expansion), so
any node with a nonempty `children` list has `expanded = true`. -/
def wfTree : TNode → Bool
  | .mk cs e => (cs.isEmpty || e) && wfTree_go cs

/-- Child traversal for `wfTree`. -/
def wfTree_go : List TNode → Bool
  | [] => true
  | c :: rest => wfTree c && wfTree_go rest

end

/-- One single-letter substitution step of the word game: the two words have
the same length and differ in exactly one position. -/
def SubstStep (w w' : List Char) : Prop :=
  w.length = w'.length ∧ diffCount w w' = 1

instance : DecidableRel SubstStep := fun w w' =>
  inferInstanceAs (Decidable (w.length = w'.length ∧ diffCount w w' = 1))

/-! ### Helper lemmas for `levenshtein` -/

theorem levRowAux_length (c1 : Char) (cs : List Char) :
    ∀ (prev : List Nat) (cur : Nat), prev.length = cs.length + 1 →
      (levRowAux c1 cs prev cur).length = cs.length := by
  induction cs with
  | nil => intro prev cur _; rfl
  | cons c2 cs ih =>
      intro prev cur h
      rcases prev with _ | ⟨p0, _ | ⟨p1, ps⟩⟩
      · simp at h
      · simp at h
      · simp only [levRowAux, List.length_cons]
        rw [ih (p1 :: ps) _ (by simpa using h)]

theorem levRowAux_getD_le (c1 : Char) (cs : List Char) :
    ∀ (prev : List Nat) (cur j : Nat), j < cs.length → prev.length = cs.length + 1 →
      (levRowAux c1 cs prev cur).getD j 0 ≤
        prev.getD j 0 + (if c1 = cs.getD j ' ' then 0 else 1) := by
  induction cs with
  | nil => intro prev cur j hj _; exact absurd hj (by simp)
  | cons c2 cs ih =>
      intro prev cur j hj hlen
      rcases prev with _ | ⟨p0, _ | ⟨p1, ps⟩⟩
      · simp at hlen
      · simp at hlen
      · cases j with
        | zero =>
            simp only [levRowAux, List.getD_cons_zero]
            exact min_le_right _ _
        | succ j' =>
            simp only [levRowAux, List.getD_cons_succ]
            exact ih (p1 :: ps) _ j' (by simpa using hj) (by simpa using hlen)

theorem levLoop_length (s2 : List Char) :
    ∀ (cs : List Char) (prev : List Nat) (i : Nat), prev.length = s2.length + 1 →
      (levLoop s2 cs prev i).length = s2.length + 1 := by
  intro cs
  induction cs with
  | nil => intro prev i h; simpa [levLoop] using h
  | cons c1 cs ih =>
      intro prev i h
      simp only [levLoop]
      exact ih _ _ (by simp [levRowAux_length c1 s2 prev _ h])

theorem levLoop_getD_le (s2 : List Char) :
    ∀ (s1rest : List Char) (prev : List Nat) (i j : Nat),
      prev.length = s2.length + 1 → j + s1rest.length ≤ s2.length →
      (levLoop s2 s1rest prev i).getD (j + s1rest.length) 0 ≤
        prev.getD j 0 + diffCount s1rest ((s2.drop j).take s1rest.length) := by
  intro s1rest
  induction s1rest with
  | nil =>
      intro prev i j _ _
      simp [levLoop, diffCount]
  | cons c1 rest ih =>
      intro prev i j hlen hle
      have hj : j < s2.length := by simp at hle; omega
      simp only [levLoop]
      have hlen' : ((i + 1) :: levRowAux c1 s2 prev (i + 1)).length = s2.length + 1 := by
        simp [levRowAux_length c1 s2 prev _ hlen]
      have h1 := ih ((i + 1) :: levRowAux c1 s2 prev (i + 1)) (i + 1) (j + 1) hlen'
        (by simp at hle ⊢; omega)
      have h2 : ((i + 1) :: levRowAux c1 s2 prev (i + 1)).getD (j + 1) 0 ≤
          prev.getD j 0 + (if c1 = s2.getD j ' ' then 0 else 1) := by
        simpa [List.getD_cons_succ] using levRowAux_getD_le c1 s2 prev (i + 1) j hj hlen
      have hidx : j + (c1 :: rest).length = (j + 1) + rest.length := by
        simp; omega
      have hdrop : s2.drop j = s2.getD j ' ' :: s2.drop (j + 1) := by
        rw [List.drop_eq_getElem_cons hj, List.getD_eq_getElem _ _ hj]
      have hdc : diffCount (c1 :: rest) ((s2.drop j).take (c1 :: rest).length) =
          (if c1 = s2.getD j ' ' then 0 else 1) +
            diffCount rest ((s2.drop (j + 1)).take rest.length) := by
        rw [hdrop]
        simp [diffCount]
      rw [hidx, hdc]
      omega

theorem getLastD_eq_getD (l : List Nat) :
    ∀ d, l.getLastD d = l.getD (l.length - 1) d := by
  induction l with
  | nil => intro d; rfl
  | cons a t ih =>
      intro d
      cases t with
      | nil => rfl
      | cons b t' =>
          have h0 : List.getLastD (a :: b :: t') d = List.getLastD (b :: t') a := rfl
          have h1 : (a :: b :: t').length - 1 = t'.length + 1 := by simp
          have h2 : (b :: t').length - 1 = t'.length := by simp
          rw [h0, ih a, h1, List.getD_cons_succ, h2]
          rw [List.getD_eq_getElem _ _ (by simp), List.getD_eq_getElem _ _ (by simp)]

theorem levCore_le_diffCount (s1 s2 : List Char) (h : s1.length = s2.length) :
    levCore s1 s2 ≤ diffCount s1 s2 := by
  by_cases h0 : s2.length = 0
  · have hs1 : s1 = [] := List.eq_nil_of_length_eq_zero (by omega)
    have hs2 : s2 = [] := List.eq_nil_of_length_eq_zero h0
    subst hs1; subst hs2
    simp [levCore, diffCount]
  · unfold levCore
    rw [if_neg h0]
    have hlen0 : (List.range (s2.length + 1)).length = s2.length + 1 := by simp
    have hrow := levLoop_length s2 s1 (List.range (s2.length + 1)) 0 hlen0
    have hmain := levLoop_getD_le s2 s1 (List.range (s2.length + 1)) 0 0 hlen0 (by omega)
    have hz : (List.range (s2.length + 1)).getD 0 0 = 0 := by
      rw [List.range_succ_eq_map, List.getD_cons_zero]
    have ht : (s2.drop 0).take s1.length = s2 := by
      rw [List.drop_zero, h, List.take_length]
    have hlast : (levLoop s2 s1 (List.range (s2.length + 1)) 0).getLastD 0 =
        (levLoop s2 s1 (List.range (s2.length + 1)) 0).getD (0 + s1.length) 0 := by
      rw [getLastD_eq_getD, hrow]
      congr 1
      omega
    rw [hlast]
    calc (levLoop s2 s1 (List.range (s2.length + 1)) 0).getD (0 + s1.length) 0
        ≤ (List.range (s2.length + 1)).getD 0 0 +
            diffCount s1 ((s2.drop 0).take s1.length) := hmain
      _ = diffCount s1 s2 := by rw [hz, ht]; omega

theorem levenshtein_le_diffCount (s1 s2 : List Char) (h : s1.length = s2.length) :
    levenshtein s1 s2 ≤ diffCount s1 s2 := by
  unfold levenshtein
  rw [if_neg (by omega)]
  exact levCore_le_diffCount s1 s2 h

theorem diffCount_self (w : List Char) : diffCount w w = 0 := by
  induction w with
  | nil => rfl
  | cons a as ih => simp [diffCount, ih]

theorem diffCount_triangle (a : List Char) :
    ∀ (b c : List Char), a.length = b.length →
      diffCount a c ≤ diffCount a b + diffCount b c := by
  induction a with
  | nil => intro b c _; simp [diffCount]
  | cons x as ih =>
      intro b c hlen
      rcases b with _ | ⟨y, bs⟩
      · simp at hlen
      · rcases c with _ | ⟨z, cs⟩
        · simp [diffCount]
        · have hih := ih bs cs (by simpa using hlen)
          have hpt : (if x = z then (0 : Nat) else 1) ≤
              (if x = y then 0 else 1) + (if y = z then 0 else 1) := by
            by_cases h1 : x = y <;> by_cases h2 : y = z <;>
              by_cases h3 : x = z <;> simp_all
          simp only [diffCount]
          omega

/-- Specification-side for the successor ordering: all substitution intents
`(position, letter)` in the generation order of `successors` — positions left
to right, and for one position the letters `a` through `z`. -/
def substPairsInOrder (w : List Char) : List (Nat × Char) :=
  (List.range w.length).flatMap (fun i => ALPHABET.map (fun c => (i, c)))

/-- Strict order on substitution intents: earlier position first, and within
one position alphabetically smaller letter first. -/
def posLetterLt (a b : Nat × Char) : Prop :=
  a.1 < b.1 ∨ (a.1 = b.1 ∧ a.2 < b.2)

theorem filterMap_const_none {α β : Type} (l : List α) :
    l.filterMap (fun _ => (none : Option β)) = [] := by
  induction l <;> simp_all [List.filterMap_cons]

theorem flatMap_const_nil {α β : Type} (l : List α) (f : α → List β)
    (h : ∀ a ∈ l, f a = []) : l.flatMap f = [] := by
  induction l with
  | nil => rfl
  | cons a as ih =>
      simp [List.flatMap_cons, h a (by simp), ih (fun b hb => h b (by simp [hb]))]

theorem substChain_diffCount_le (w : List Char) (p : List (List Char)) :
    List.Chain' SubstStep (w :: p) →
      diffCount w ((w :: p).getLast (List.cons_ne_nil _ _)) ≤ p.length ∧
        w.length = ((w :: p).getLast (List.cons_ne_nil _ _)).length := by
  induction p generalizing w with
  | nil => intro _; exact ⟨by simp [List.getLast, diffCount_self], by simp [List.getLast]⟩
  | cons u rest ih =>
      intro h
      obtain ⟨hstep, htail⟩ := List.chain'_cons.mp h
      obtain ⟨ihd, ihl⟩ := ih u htail
      have hgl : (w :: u :: rest).getLast (List.cons_ne_nil _ _) =
          (u :: rest).getLast (List.cons_ne_nil _ _) := List.getLast_cons _
      rw [hgl]
      refine ⟨?_, by rw [hstep.1, ihl]⟩
      calc diffCount w ((u :: rest).getLast (List.cons_ne_nil _ _))
          ≤ diffCount w u + diffCount u ((u :: rest).getLast (List.cons_ne_nil _ _)) :=
            diffCount_triangle w u _ hstep.1
        _ ≤ (u :: rest).length := by rw [hstep.2]; simp only [List.length_cons]; omega

theorem diffCount_set_le (l : List Char) :
    ∀ (i : Nat) (a : Char), diffCount l (l.set i a) ≤ 1 := by
  induction l with
  | nil => intro i a; simp [diffCount]
  | cons x xs ih =>
      intro i a
      cases i with
      | zero =>
          simp only [List.set_cons_zero, diffCount, diffCount_self]
          split <;> omega
      | succ i' =>
          simp only [List.set_cons_succ, diffCount, if_pos rfl]
          simpa using ih i' a

theorem expandedCounts_nil_of_unexpanded (c : TNode) (hwf : wfTree c = true)
    (hex : c.expanded = false) : expandedCounts c = [] := by
  cases c with
  | mk cs e =>
      have he : e = false := hex
      subst he
      have hcs : cs = [] := by
        simp only [wfTree, Bool.or_false, Bool.and_eq_true] at hwf
        exact List.isEmpty_iff.mp hwf.1
      subst hcs
      rfl

mutual

theorem node_bf_eq_expandedCounts :
    ∀ (t : TNode), wfTree t = true → t.expanded = true → node_bf t = expandedCounts t
  | .mk cs e, hwf, hex => by
      have he : e = true := hex
      subst he
      have hgo : wfTree_go cs = true := by
        simp only [wfTree, Bool.and_eq_true] at hwf
        exact hwf.2
      simp only [node_bf, expandedCounts, if_pos]
      rw [node_bf_go_eq_expandedCounts_go cs hgo]
      rfl

theorem node_bf_go_eq_expandedCounts_go :
    ∀ (cs : List TNode), wfTree_go cs = true → node_bf_go cs = expandedCounts_go cs
  | [], _ => rfl
  | c :: rest, h => by
      have hc : wfTree c = true ∧ wfTree_go rest = true := by
        simpa [wfTree_go, Bool.and_eq_true] using h
      simp only [node_bf_go, expandedCounts_go]
      by_cases hce : c.expanded = true
      · rw [if_pos hce, node_bf_eq_expandedCounts c hc.1 hce,
          node_bf_go_eq_expandedCounts_go rest hc.2]
      · rw [if_neg hce,
          expandedCounts_nil_of_unexpanded c hc.1 (by simpa using hce),
          node_bf_go_eq_expandedCounts_go rest hc.2]

end

/-! ### The claims -/

/-- C1: the custom heuristic is admissible.  For every state and goal word,
and every sequence of single-letter substitutions (each of cost 1) leading
from the state's word to the goal word, `heuristic_custom` — that is,
`levenshtein(state.word, gw)` — is at most the number of steps in the
sequence, so it never overestimates the true remaining cost. -/
theorem heuristic_custom_admissible (gw : List Char) (s : WordState)
    (path : List (List Char)) (hchain : List.Chain' SubstStep (s.word :: path))
    (hlast : (s.word :: path).getLast (List.cons_ne_nil _ _) = gw) :
    heuristic_custom gw s ≤ path.length := by
  obtain ⟨hd, hl⟩ := substChain_diffCount_le s.word path hchain
  rw [hlast] at hd hl
  unfold heuristic_custom
  exact le_trans (levenshtein_le_diffCount _ _ hl) hd

/-- Witness for C1: the one-step substitution chain cat → cot gives
`levenshtein(cat, cot) ≤ 1`. -/
theorem heuristic_custom_admissible_witness :
    heuristic_custom ['c', 'o', 't'] ⟨['c', 'a', 't']⟩ ≤ 1 :=
  heuristic_custom_admissible ['c', 'o', 't'] ⟨['c', 'a', 't']⟩ [['c', 'o', 't']]
    (List.chain'_cons.mpr ⟨by decide, List.chain'_singleton _⟩) (by decide)

/-- C2 counterexample: on the expansion tree whose root is unexpanded and has
one expanded, childless child, `branching_factor` returns `1/2` — the children
counts of exactly the expanded nodes are `[0]`, whose arithmetic mean is `0`,
so the root's count entered the mean even though its `expanded` flag is
false. -/
theorem branching_factor_mean_counterexample :
    branching_factor (.mk [.mk [] true] false) ≠
      .ok (((expandedCounts (.mk [.mk [] true] false)).sum : Rat) /
        ((expandedCounts (.mk [.mk [] true] false)).length : Rat)) ∧
    branching_factor (.mk [.mk [] true] false) = .ok (1 / 2) ∧
    expandedCounts (.mk [.mk [] true] false) = [0] := by
  refine ⟨?_, ?_, rfl⟩
  · show Except.ok ((1 : Rat) / 2) ≠ Except.ok ((0 : Rat) / 1)
    intro h
    have := Except.ok.inj h
    norm_num at this
  · show Except.ok ((1 : Rat) / 2) = Except.ok (1 / 2)
    rfl

/-- C2 amended: `node_bf` counts the root's children unconditionally and then
recurses only through expanded children; hence on every well-formed expansion
tree (children only appear on expanded nodes) whose root is expanded,
`branching_factor` returns the arithmetic mean of the children counts over
exactly the nodes whose `expanded` flag is true, unexpanded nodes contributing
nothing. -/
theorem branching_factor_expanded_mean (t : TNode) (hwf : wfTree t = true)
    (hroot : t.expanded = true) :
    node_bf t = expandedCounts t ∧
    branching_factor t =
      .ok (((expandedCounts t).sum : Rat) / ((expandedCounts t).length : Rat)) := by
  have hmain : node_bf t = expandedCounts t := node_bf_eq_expandedCounts t hwf hroot
  refine ⟨hmain, ?_⟩
  unfold branching_factor
  rw [hmain, if_neg]
  cases t with
  | mk cs e =>
      have he : e = true := hroot
      subst he
      simp [expandedCounts]

/-- Witness for C2 (amended): an expanded root with two unexpanded childless
children has branching factor `2 = (2 : Rat) / 1`. -/
theorem branching_factor_expanded_mean_witness :
    node_bf (.mk [.mk [] false, .mk [] false] true) =
      expandedCounts (.mk [.mk [] false, .mk [] false] true) ∧
    branching_factor (.mk [.mk [] false, .mk [] false] true) =
      .ok (((expandedCounts (.mk [.mk [] false, .mk [] false] true)).sum : Rat) /
        ((expandedCounts (.mk [.mk [] false, .mk [] false] true)).length : Rat)) :=
  branching_factor_expanded_mean (.mk [.mk [] false, .mk [] false] true)
    (by decide) (by decide)

/-- C3 counterexample: on the tree consisting of a single unexpanded root (no
node was ever expanded), `branching_factor` returns the number `0.0` instead
of failing: `node_bf` still collects the root's children count, so the mean is
taken over a one-element list. -/
theorem branching_factor_no_failure_counterexample :
    branching_factor (.mk [] false) = .ok 0 ∧
    expandedCounts (.mk [] false) = [] := by
  refine ⟨?_, rfl⟩
  show Except.ok ((0 : Rat) / 1) = Except.ok 0
  norm_num

/-- C3 amended: `branching_factor` never fails — `node_bf` always contains at
least the root's children count — and on a well-formed expansion tree whose
root is unexpanded (so no node was ever expanded) it returns `0.0` rather than
raising an error. -/
theorem branching_factor_never_fails (t : TNode) :
    (branching_factor t).isOk = true ∧
    (wfTree t = true → t.expanded = false → branching_factor t = .ok 0) := by
  constructor
  · unfold branching_factor
    rw [if_neg]
    · rfl
    · cases t with
      | mk cs e => simp [node_bf]
  · intro hwf hex
    cases t with
    | mk cs e =>
        have he : e = false := hex
        subst he
        have hcs : cs = [] := by
          simp only [wfTree, Bool.or_false, Bool.and_eq_true] at hwf
          exact List.isEmpty_iff.mp hwf.1
        subst hcs
        show Except.ok ((0 : Rat) / 1) = Except.ok 0
        norm_num

/-- Witness for C3 (amended): at a single unexpanded root with one child
removed, the call succeeds with `0`. -/
theorem branching_factor_never_fails_witness :
    (branching_factor (.mk [.mk [] true] true)).isOk = true ∧
    branching_factor (.mk [] false) = .ok 0 :=
  ⟨(branching_factor_never_fails (.mk [.mk [] true] true)).1,
    (branching_factor_never_fails (.mk [] false)).2 (by decide) (by decide)⟩

/-- C4 counterexample: with the dictionary `{cat}` and state `cat`, the state's
own word is returned as a successor (three times — once for each position),
and it differs from the input in zero letter positions, not exactly one. -/
theorem successors_self_counterexample :
    (⟨['c', 'a', 't']⟩ : WordState) ∈
      (successors [['c', 'a', 't']] ⟨['c', 'a', 't']⟩).1 ∧
    diffCount ['c', 'a', 't'] ['c', 'a', 't'] = 0 := by decide

/-- C4 amended: every successor word has the same length as the state's word,
belongs to the dictionary, and differs from the state's word in AT MOST one
letter position — the substitution loop runs over all 26 letters including the
current one, so the state's own word is itself a successor whenever it is in
the dictionary. -/
theorem successors_sound (dictionary : List (List Char)) (s s' : WordState)
    (h : s' ∈ (successors dictionary s).1) :
    s'.word.length = s.word.length ∧ s'.word ∈ dictionary ∧
      diffCount s.word s'.word ≤ 1 := by
  obtain ⟨w, hw, rfl⟩ := List.mem_map.mp h
  obtain ⟨i, _, hw2⟩ := List.mem_flatMap.mp hw
  obtain ⟨alph, _, heq⟩ := List.mem_filterMap.mp hw2
  simp only at heq
  split at heq
  next hmem =>
    cases heq
    exact ⟨by simp, hmem, diffCount_set_le s.word i alph⟩
  next => cases heq

/-- Witness for C4 (amended): the successor `cot` of `cat` under dictionary
`{cot}` has length 3, is in the dictionary, and differs in at most one
position. -/
theorem successors_sound_witness :
    (⟨['c', 'o', 't']⟩ : WordState).word.length =
      (⟨['c', 'a', 't']⟩ : WordState).word.length ∧
    (⟨['c', 'o', 't']⟩ : WordState).word ∈ [['c', 'o', 't']] ∧
    diffCount ['c', 'a', 't'] ['c', 'o', 't'] ≤ 1 :=
  successors_sound [['c', 'o', 't']] ⟨['c', 'a', 't']⟩ ⟨['c', 'o', 't']⟩ (by decide)

/-- C5: the successor list and the cost list returned by `successors` have
equal length, every cost is the non-negative value `1`, and the empty pair is
a legal result — with an empty dictionary, `successors` returns `([], [])`. -/
theorem successors_costs (dictionary : List (List Char)) (s t : WordState) :
    (successors dictionary s).1.length = (successors dictionary s).2.length ∧
    (∀ c ∈ (successors dictionary s).2, 0 ≤ c ∧ c = 1) ∧
    successors [] t = ([], []) := by
  refine ⟨by simp [successors], ?_, ?_⟩
  · intro c hc
    simp only [successors, List.mem_map] at hc
    obtain ⟨_, _, rfl⟩ := hc
    exact ⟨by norm_num, rfl⟩
  · have hw : ((List.range t.word.length).flatMap (fun i =>
        ALPHABET.filterMap (fun alph =>
          let cand := t.word.set i alph
          if cand ∈ ([] : List (List Char)) then some cand else none))) = [] :=
      flatMap_const_nil _ _ (fun i _ => by simp [filterMap_const_none])
    show (((List.range t.word.length).flatMap (fun i =>
        ALPHABET.filterMap (fun alph =>
          let cand := t.word.set i alph
          if cand ∈ ([] : List (List Char)) then some cand else none))).map WordState.mk,
      ((List.range t.word.length).flatMap (fun i =>
        ALPHABET.filterMap (fun alph =>
          let cand := t.word.set i alph
          if cand ∈ ([] : List (List Char)) then some cand else none))).map
            (fun _ => (1 : Int))) = (([] : List WordState), ([] : List Int))
    rw [hw]
    rfl

/-- Witness for C5: the dictionary `{cot}` and state `cat` give one successor
at cost `1`, and cost `1` is non-negative and equal to `1`. -/
theorem successors_costs_witness :
    (0 : Int) ≤ 1 ∧ (1 : Int) = 1 :=
  (successors_costs [['c', 'o', 't']] ⟨['c', 'a', 't']⟩ ⟨['x']⟩).2.1 1 (by decide)

/-- C6: the visited ledger keeps at most one current node per distinct state:
`visit` overwrites any prior entry for the state's word, and after any
sequence of `visit` / `clear_visited` operations, `visited_state_node` (a
total function — it never throws) returns the node of the most recent `visit`
registered for the state's word since the last clear, or `none`. -/
theorem visited_ledger_correct {Node : Type} (ops : List (VisitOp Node))
    (s : WordState) (v : Visited Node) (n : Node) :
    visited_state_node (visit v s n) s = some n ∧
    visited_state_node (runVisits ops) s = lastRegistered ops s.word := by
  constructor
  · simp [visited_state_node, visit]
  · induction ops with
    | nil => rfl
    | cons op rest ih =>
        cases op with
        | visit w m =>
            show (if s.word = w then some m else runVisits rest s.word) =
              (if s.word = w then some m else lastRegistered rest s.word)
            split
            · rfl
            · exact ih
        | clear => rfl

/-- C7: `heuristic` returns a non-negative value whenever `heuristicType` is
`0` or `1`, returns exactly `0` for every state in the null mode
(`heuristicType = 0`), and fails with `RuntimeError` for any other
`heuristicType`. -/
theorem heuristic_dispatch (ht : Int) (gw : List Char) (s : WordState) :
    (ht = 0 → heuristic ht gw s = .ok 0) ∧
    ((ht = 0 ∨ ht = 1) → ∃ v : Int, heuristic ht gw s = .ok v ∧ 0 ≤ v) ∧
    (ht ≠ 0 → ht ≠ 1 →
      heuristic ht gw s = .error ("Illegal heuristic type: " ++ toString ht)) := by
  refine ⟨?_, ?_, ?_⟩
  · intro h
    subst h
    simp [heuristic, heuristic_null]
  · rintro (h | h) <;> subst h
    · exact ⟨0, by simp [heuristic, heuristic_null], le_refl 0⟩
    · exact ⟨heuristic_custom gw s, by simp [heuristic], Int.natCast_nonneg _⟩
  · intro h0 h1
    simp [heuristic, h0, h1]

/-- Witness for C7: heuristic mode 0 gives `ok 0`; heuristic mode 2 gives the
`RuntimeError` message. -/
theorem heuristic_dispatch_witness :
    heuristic 0 ['a'] ⟨['b']⟩ = .ok 0 ∧
    heuristic 2 ['a'] ⟨['b']⟩ = .error ("Illegal heuristic type: " ++ toString (2 : Int)) :=
  ⟨(heuristic_dispatch 0 ['a'] ⟨['b']⟩).1 rfl,
    (heuristic_dispatch 2 ['a'] ⟨['b']⟩).2.2 (by decide) (by decide)⟩

/-- C8: constructing a `WordAStar` with start and goal words of different
lengths fails with `RuntimeError` before the dictionary is loaded (the error
does not depend on the dictionary file's contents) or any state is created,
and construction succeeds exactly when the two words have equal length. -/
theorem wordAStar_init_length_check (startWord goalWord : List Char) (ht : Int)
    (fileLines fileLines2 : List (List Char)) :
    (startWord.length ≠ goalWord.length →
      wordAStar_init startWord goalWord ht fileLines =
          .error "Words must be the same length" ∧
        wordAStar_init startWord goalWord ht fileLines =
          wordAStar_init startWord goalWord ht fileLines2) ∧
    ((wordAStar_init startWord goalWord ht fileLines).isOk = true ↔
      startWord.length = goalWord.length) := by
  constructor
  · intro h
    unfold wordAStar_init
    rw [if_pos h]
    exact ⟨rfl, by rw [if_pos h]⟩
  · unfold wordAStar_init
    by_cases h : startWord.length = goalWord.length
    · simp [h, Except.isOk, Except.toBool]
    · simp [h, Except.isOk, Except.toBool]

/-- Witness for C8: `a` versus `ab` fails identically for two different
dictionary files, and `ab` versus `cd` succeeds. -/
theorem wordAStar_init_length_check_witness :
    (wordAStar_init ['a'] ['a', 'b'] 0 [] = .error "Words must be the same length" ∧
      wordAStar_init ['a'] ['a', 'b'] 0 [] = wordAStar_init ['a'] ['a', 'b'] 0 [['x']]) ∧
    (wordAStar_init ['a', 'b'] ['c', 'd'] 0 []).isOk = true :=
  ⟨(wordAStar_init_length_check ['a'] ['a', 'b'] 0 [] [['x']]).1 (by decide),
    (wordAStar_init_length_check ['a', 'b'] ['c', 'd'] 0 [] []).2.mpr rfl⟩

/-- C9: `successors` is deterministic — two states holding equal words give
identical results against the same dictionary — and its successor words are
exactly the substitution candidates `(position, letter)` taken in the strictly
increasing order `posLetterLt` (position left to right, then letter `a` to
`z`), filtered by dictionary membership. -/
theorem successors_deterministic_ordered (dictionary : List (List Char))
    (s1 s2 : WordState) (h : s1.word = s2.word) :
    successors dictionary s1 = successors dictionary s2 ∧
    List.Pairwise posLetterLt (substPairsInOrder s1.word) ∧
    (successors dictionary s1).1.map WordState.word =
      (substPairsInOrder s1.word).filterMap (fun p =>
        if s1.word.set p.1 p.2 ∈ dictionary then some (s1.word.set p.1 p.2)
        else none) := by
  refine ⟨?_, ?_, ?_⟩
  · cases s1 with
    | mk w1 =>
        cases s2 with
        | mk w2 =>
            have hw : w1 = w2 := h
            subst hw
            rfl
  · unfold substPairsInOrder
    rw [List.pairwise_flatMap]
    constructor
    · intro i _
      rw [List.pairwise_map]
      have halpha : ALPHABET.Pairwise (· < ·) := by decide
      exact halpha.imp (fun hlt => Or.inr ⟨rfl, hlt⟩)
    · have hrange : (List.range s1.word.length).Pairwise (· < ·) :=
        List.pairwise_lt_range _
      refine hrange.imp ?_
      intro a b hab x hx y hy
      obtain ⟨c, _, rfl⟩ := List.mem_map.mp hx
      obtain ⟨c', _, rfl⟩ := List.mem_map.mp hy
      exact Or.inl hab
  · unfold successors substPairsInOrder
    rw [List.filterMap_flatMap]
    simp only [List.map_map, List.filterMap_map, Function.comp_def, List.map_id']

/-- Witness for C9: the word `a` against the dictionary `{b}`. -/
theorem successors_deterministic_ordered_witness :
    successors [['b']] ⟨['a']⟩ = successors [['b']] ⟨['a']⟩ ∧
    List.Pairwise posLetterLt (substPairsInOrder ['a']) ∧
    (successors [['b']] ⟨['a']⟩).1.map WordState.word =
      (substPairsInOrder ['a']).filterMap (fun p =>
        if ['a'].set p.1 p.2 ∈ [['b']] then some (['a'].set p.1 p.2) else none) :=
  successors_deterministic_ordered [['b']] ⟨['a']⟩ ⟨['a']⟩ rfl

/-- C10: every element of `make_dictionary(size)` is the lowercased,
whitespace-stripped form of some line of the dictionary file whose stripped
form has length exactly `size`; since lowercasing is characterwise on ASCII,
every word in the result has length exactly `size`. -/
theorem make_dictionary_sound (size : Nat) (fileLines : List (List Char))
    (w : List Char) (h : w ∈ make_dictionary size fileLines) :
    (∃ line ∈ fileLines, w = pyLower (pyStrip line) ∧ (pyStrip line).length = size) ∧
      w.length = size := by
  unfold make_dictionary at h
  obtain ⟨line, hline, rfl⟩ := List.mem_map.mp h
  have hmem := List.mem_filter.mp hline
  have hsz : (pyStrip line).length = size := by simpa using hmem.2
  refine ⟨⟨line, hmem.1, rfl, hsz⟩, ?_⟩
  simp [pyLower, hsz]

/-- Witness for C10: the file line `" Cat "` yields the dictionary word `cat`
of length 3. -/
theorem make_dictionary_sound_witness :
    (∃ line ∈ [[' ', 'C', 'a', 't', ' ']],
      ['c', 'a', 't'] = pyLower (pyStrip line) ∧ (pyStrip line).length = 3) ∧
    (['c', 'a', 't'] : List Char).length = 3 :=
  make_dictionary_sound 3 [[' ', 'C', 'a', 't', ' ']] ['c', 'a', 't'] (by decide)

end Wordgame
